import Mathlib

/-!
Verification development for the equalizer program (src/equalizer.c).

The program turns a textual list of (frequency, amplification) breakpoints
into an FIR filter via two real half-complex Fourier transforms.  We embed
the two core functions shallowly:

* `LoadFrequencyAmplification` (src/equalizer.c lines 75-110): the breakpoint
  scanner and frequency-response sampler.  The configuration text is modelled
  at the granularity of the sscanf calls: each scan attempt either yields a
  numeric pair (`ConfigTok.pair`), or fails on malformed text
  (`ConfigTok.bad`); an exhausted list models the empty remaining string.
  All double arithmetic of the sampler is field arithmetic and is embedded
  exactly over ℚ.

* `EqualizerLoad` (src/equalizer.c lines 126-174): clears the frequency
  buffer (memset, line 131), runs the sampler, and on success applies the
  inverse transform, the Hann window with circular reindexing, and the
  forward transform with renormalization.  The two FFTW real transforms
  (plans built with FFTW_HC2R / FFTW_R2HC) are external library calls; they
  are embedded by their documented halfcomplex formulas, `hc2r` and `r2hc`,
  over ℝ.  Buffers are total functions `ℕ → ℝ`; only indices below the
  block size `N` correspond to allocated memory and the in-place loops are
  written as pure functions that change exactly the indices the C loops
  write.

The C `while (f >= next_f)` loop does not terminate when the sampling rate
is not positive (with the input exhausted it sets `next_f = rate` forever);
the embedding makes this explicit with a `diverge` outcome, and
`EqualizerLoad` returns `none` in that case.
-/

namespace Equalizer

/-- Masking window value, from GetWindow (src/equalizer.c lines 61-63):
a Hann window, 0.5 + 0.5 * cos (pi * x). -/
noncomputable def GetWindow (x : ℝ) : ℝ := 0.5 + 0.5 * Real.cos (Real.pi * x)

/-- One token of the configuration text, as seen by the sscanf call at
line 91: either a successfully scanned (frequency, amplification) pair,
or a position where scanning fails (malformed text). -/
inductive ConfigTok
  | pair (f amp : ℚ)
  | bad
deriving DecidableEq

/-- The configuration text: the stream of scan results; `[]` models the
empty remaining string (`*config == 0`). -/
abbrev Config := List ConfigTok

/-- Outcome of the `while (f >= next_f)` loop (lines 83-105) for one bin:
the updated cursor state, a parse error, or nontermination. -/
inductive ScanResult
  | ok (pf pa nf na : ℚ) (cfg : Config)
  | parseError
  | diverge

/-- The `while (f >= next_f)` loop body (src/equalizer.c lines 83-105),
run to completion for one bin frequency `f`.  State is
(prev_f, prev_amp, next_f, next_amp) plus the remaining text.  Faithful
order of effects: prev := next; then either the exhausted branch
(next_f := rate, next_amp := prev_amp) or a scan with the monotonicity
check `next_f <= prev_f`; finally `if (prev_f == 0.0) prev_amp := next_amp`.
When the input is exhausted and still `f >= rate`, the C loop never
terminates, which we surface as `diverge`. -/
def advance (rate f : ℚ) (pf pa nf na : ℚ) : Config → ScanResult
  | [] =>
    if f ≥ nf then
      if f ≥ rate then .diverge
      else .ok nf na rate na []
    else .ok pf pa nf na []
  | t :: rest =>
    if f ≥ nf then
      match t with
      | .bad => .parseError
      | .pair f2 a2 =>
        if f2 ≤ nf then .parseError
        else advance rate f nf (if nf = 0 then a2 else na) f2 a2 rest
    else .ok pf pa nf na (t :: rest)

/-- Outcome of the sampler: on success the fully written frequency buffer;
on parse error the buffer as mutated so far (bins before the failing one
already hold their sampled gains). -/
inductive LoadOut
  | ok (freq : ℕ → ℚ)
  | fail (freq : ℕ → ℚ)
  | diverge (freq : ℕ → ℚ)

/-- Did the sampler succeed. -/
def LoadOut.isOk : LoadOut → Bool
  | .ok _ => true
  | _ => false

/-- Did the sampler return a parse error. -/
def LoadOut.isFail : LoadOut → Bool
  | .fail _ => true
  | _ => false

/-- The frequency buffer carried by a sampler outcome. -/
def LoadOut.buf : LoadOut → ℕ → ℚ
  | .ok freq => freq
  | .fail freq => freq
  | .diverge freq => freq

/-- The `for (i = 0; i <= block_size / 2; ++i)` loop of
LoadFrequencyAmplification (lines 81-108): processes `k` remaining bins
starting at bin `i`.  Each bin advances the cursor with `advance` and then
stores the linear interpolation
`((f - prev_f) / (next_f - prev_f)) * (next_amp - prev_amp) + prev_amp`
into the frequency buffer at index `i` (lines 106-107). -/
def loadAux (rate : ℚ) (N : ℕ) :
    ℕ → ℕ → (ℕ → ℚ) → ℚ → ℚ → ℚ → ℚ → Config → LoadOut
  | _, 0, freq, _, _, _, _, _ => .ok freq
  | i, k + 1, freq, pf, pa, nf, na, cfg =>
    let f := rate / (N : ℚ) * (i : ℚ)
    match advance rate f pf pa nf na cfg with
    | .parseError => .fail freq
    | .diverge => .diverge freq
    | .ok pf2 pa2 nf2 na2 cfg2 =>
      loadAux rate N (i + 1) k
        (Function.update freq i (((f - pf2) / (nf2 - pf2)) * (na2 - pa2) + pa2))
        pf2 pa2 nf2 na2 cfg2

/-- LoadFrequencyAmplification (src/equalizer.c lines 75-110): samples the
requested gain at every bin 0 .. N/2 into the frequency buffer, starting
from cursor state prev_f = 0, prev_amp = 1, next_f = 0, next_amp = 1
(lines 76-79). -/
def LoadFrequencyAmplification (rate : ℚ) (N : ℕ) (cfg : Config)
    (freq : ℕ → ℚ) : LoadOut :=
  loadAux rate N 0 (N / 2 + 1) freq 0 1 0 1 cfg

/-- A configuration that is a plain list of numeric breakpoints, no
malformed trailing text. -/
def toCfg (ps : List (ℚ × ℚ)) : Config := ps.map fun p => ConfigTok.pair p.1 p.2

/-- The amplification of the last breakpoint of a list, with a default for
the empty list. -/
def lastAmp (ps : List (ℚ × ℚ)) (d : ℚ) : ℚ := (ps.getLast?.map Prod.snd).getD d

/-- The cursor state from which the gain of bin `i + j` is computed, when
the sampler starts bin `i` in state (pf, pa, nf, na, cfg): the chain of
`advance` calls for bins i, i+1, ..., i+j. -/
def chainFrom (rate : ℚ) (N : ℕ) (i : ℕ) (pf pa nf na : ℚ) (cfg : Config) :
    ℕ → ScanResult
  | 0 => advance rate (rate / (N : ℚ) * (i : ℚ)) pf pa nf na cfg
  | j + 1 =>
    match chainFrom rate N i pf pa nf na cfg j with
    | .ok pf2 pa2 nf2 na2 c2 =>
      advance rate (rate / (N : ℚ) * ((i + j + 1 : ℕ) : ℚ)) pf2 pa2 nf2 na2 c2
    | r => r

/-- The cursor state of LoadFrequencyAmplification at the moment the gain
of bin `i` is stored (line 106), starting from the initial state of
lines 76-79. -/
def binStates (rate : ℚ) (N : ℕ) (cfg : Config) (i : ℕ) : ScanResult :=
  chainFrom rate N 0 0 1 0 1 cfg i

/-- The two buffers of the Equalizer (src/equalizer.c lines 69-70), as
total functions; only indices below the block size are allocated memory. -/
structure EqState where
  time : ℕ → ℝ
  freq : ℕ → ℝ

/-- The unnormalized FFTW halfcomplex-to-real transform (the plan built
with FFTW_HC2R at line 122) for even length N, per the FFTW documentation:
input slot k < N/2 holds the cosine coefficient of bin k, input slot N - k
holds the paired sine coefficient, slot N/2 is the purely real Nyquist bin. -/
noncomputable def hc2r (N : ℕ) (F : ℕ → ℝ) (j : ℕ) : ℝ :=
  F 0 + (-1 : ℝ) ^ j * F (N / 2) +
    2 * ∑ k in Finset.Ioo 0 (N / 2),
      (F k * Real.cos (2 * Real.pi * (j : ℝ) * (k : ℝ) / (N : ℝ)) -
        F (N - k) * Real.sin (2 * Real.pi * (j : ℝ) * (k : ℝ) / (N : ℝ)))

/-- The unnormalized FFTW real-to-halfcomplex transform (the plan built
with FFTW_R2HC at line 120) for even length N: slot k ≤ N/2 receives the
cosine sum of bin k, slot k > N/2 the sine sum of bin N - k. -/
noncomputable def r2hc (N : ℕ) (T : ℕ → ℝ) (k : ℕ) : ℝ :=
  if k ≤ N / 2 then
    ∑ j in Finset.range N, T j * Real.cos (2 * Real.pi * (k : ℝ) * (j : ℝ) / (N : ℝ))
  else
    -∑ j in Finset.range N, T j * Real.sin (2 * Real.pi * ((N - k : ℕ) : ℝ) * (j : ℝ) / (N : ℝ))

/-- Effect of `fftw_execute(e->inverse)` (line 138) on the time buffer:
the N allocated slots receive the HC2R output, nothing else changes. -/
noncomputable def invStep (N : ℕ) (F : ℕ → ℝ) (T : ℕ → ℝ) : ℕ → ℝ :=
  fun j => if j < N then hc2r N F j else T j

/-- Effect of the windowing loop (lines 140-143): for i = 0 .. N/2 - 1 the
slot N/2 + i receives the slot-i value times GetWindow(i / (N/2)) / N.
The written slots N/2 .. N-1 are disjoint from the read slots 0 .. N/2-1,
so the in-place loop equals this pure function. -/
noncomputable def windowStep (N : ℕ) (T : ℕ → ℝ) : ℕ → ℝ :=
  fun j =>
    if N / 2 ≤ j ∧ j < N then
      T (j - N / 2) * (GetWindow (((j - N / 2 : ℕ) : ℝ) / ((N / 2 : ℕ) : ℝ)) / (N : ℝ))
    else T j

/-- Effect of the reindexing loop (lines 144-146): for i = N/2 - 1 down to
1 the slot i receives the value of slot N - i.  The written slots
1 .. N/2-1 are disjoint from the read slots N/2+1 .. N-1, so the in-place
loop equals this pure function. -/
noncomputable def shiftStep (N : ℕ) (T : ℕ → ℝ) : ℕ → ℝ :=
  fun j => if 1 ≤ j ∧ j < N / 2 then T (N - j) else T j

/-- The time buffer after lines 138-147: inverse transform, window, shift,
and `fftw_time[0] = 0`.  This is the delivered FIR filter. -/
noncomputable def eqSynthTime (N : ℕ) (F : ℕ → ℝ) (T : ℕ → ℝ) : ℕ → ℝ :=
  Function.update (shiftStep N (windowStep N (invStep N F T))) 0 0

/-- The Equalizer state after line 147, given the sampled gains Fq: the
time buffer holds the synthesized filter; the freq buffer holds the
sampled spectrum (memset zeros above bin N/2). -/
noncomputable def synthState (N : ℕ) (Fq : ℕ → ℚ) (st : EqState) : EqState where
  time := eqSynthTime N (fun k => (Fq k : ℝ)) st.time
  freq := fun i => if i < N then (Fq i : ℝ) else st.freq i

/-- Effect of lines 149-152: `fftw_execute(e->forward)` overwrites the N
allocated freq slots with the R2HC transform of the time buffer, and the
following loop divides each of them by N.  The time buffer is untouched. -/
noncomputable def finalizeFreq (N : ℕ) (s : EqState) : EqState :=
  { s with freq := fun i => if i < N then r2hc N s.time i / (N : ℝ) else s.freq i }

/-- The realized magnitude reported by the debug loop (lines 155-163):
sqrt of the cosine term squared plus, away from the two edge bins, the
mirrored sine term squared, scaled by N.  The loop only reads the buffers
and prints; it is embedded as this read-only function. -/
noncomputable def debugAmplitude (N : ℕ) (s : EqState) (i : ℕ) : ℝ :=
  Real.sqrt ((s.freq i) ^ 2 +
    (if 0 < i ∧ i < N / 2 then (s.freq (N - i)) ^ 2 else 0)) * (N : ℝ)

/-- EqualizerLoad (src/equalizer.c lines 126-174).  The freq buffer is
cleared (memset, line 131) before the sampler runs, so the sampler starts
from the zero buffer; on parse error the function returns 0 with the
partially written freq buffer in place and the time buffer untouched; on
success it synthesizes the filter and recomputes the diagnostic spectrum.
`none` models the nonterminating run (possible only when rate ≤ f for some
bin frequency f, i.e. never for a positive rate). -/
noncomputable def EqualizerLoad (rate : ℚ) (N : ℕ) (cfg : Config) (st : EqState) :
    Option (EqState × Bool) :=
  match LoadFrequencyAmplification rate N cfg (fun _ => 0) with
  | .fail b =>
    some ({ st with freq := fun i => if i < N then (b i : ℝ) else st.freq i }, false)
  | .diverge _ => none
  | .ok Fq => some (finalizeFreq N (synthState N Fq st), true)

/-! Unfolding equations for the two loops, phrased per branch. -/

theorem advance_nil_lt {rate f pf pa nf na : ℚ} (h : ¬ f ≥ nf) :
    advance rate f pf pa nf na [] = .ok pf pa nf na [] := by
  simp [advance, h]

theorem advance_nil_ge {rate f pf pa nf na : ℚ} (h : f ≥ nf) (h2 : ¬ f ≥ rate) :
    advance rate f pf pa nf na [] = .ok nf na rate na [] := by
  simp [advance, h, h2]

theorem advance_cons_lt {rate f pf pa nf na : ℚ} {t : ConfigTok} {rest : Config}
    (h : ¬ f ≥ nf) : advance rate f pf pa nf na (t :: rest) = .ok pf pa nf na (t :: rest) := by
  simp [advance, h]

theorem advance_cons_bad {rate f pf pa nf na : ℚ} {rest : Config} (h : f ≥ nf) :
    advance rate f pf pa nf na (.bad :: rest) = .parseError := by
  simp [advance, h]

theorem advance_cons_pair_err {rate f pf pa nf na f2 a2 : ℚ} {rest : Config}
    (h : f ≥ nf) (h2 : f2 ≤ nf) :
    advance rate f pf pa nf na (.pair f2 a2 :: rest) = .parseError := by
  simp [advance, h, h2]

theorem advance_cons_pair {rate f pf pa nf na f2 a2 : ℚ} {rest : Config}
    (h : f ≥ nf) (h2 : ¬ f2 ≤ nf) :
    advance rate f pf pa nf na (.pair f2 a2 :: rest) =
      advance rate f nf (if nf = 0 then a2 else na) f2 a2 rest := by
  simp [advance, h, h2]

theorem loadAux_step (rate : ℚ) (N i k : ℕ) (freq : ℕ → ℚ) (pf pa nf na : ℚ)
    (cfg : Config) :
    loadAux rate N i (k + 1) freq pf pa nf na cfg =
      match advance rate (rate / (N : ℚ) * (i : ℚ)) pf pa nf na cfg with
      | .parseError => .fail freq
      | .diverge => .diverge freq
      | .ok pf2 pa2 nf2 na2 cfg2 =>
        loadAux rate N (i + 1) k
          (Function.update freq i
            (((rate / (N : ℚ) * (i : ℚ) - pf2) / (nf2 - pf2)) * (na2 - pa2) + pa2))
          pf2 pa2 nf2 na2 cfg2 := rfl

theorem advance_lt {rate f pf pa nf na : ℚ} {cfg : Config} (h : ¬ f ≥ nf) :
    advance rate f pf pa nf na cfg = .ok pf pa nf na cfg := by
  cases cfg with
  | nil => exact advance_nil_lt h
  | cons t rest => exact advance_cons_lt h

theorem loadAux_step_ok {rate : ℚ} {N i : ℕ} {pf pa nf na pf2 pa2 nf2 na2 : ℚ}
    {cfg cfg2 : Config}
    (h : advance rate (rate / (N : ℚ) * (i : ℚ)) pf pa nf na cfg =
      .ok pf2 pa2 nf2 na2 cfg2) (k : ℕ) (freq : ℕ → ℚ) :
    loadAux rate N i (k + 1) freq pf pa nf na cfg =
      loadAux rate N (i + 1) k
        (Function.update freq i
          (((rate / (N : ℚ) * (i : ℚ) - pf2) / (nf2 - pf2)) * (na2 - pa2) + pa2))
        pf2 pa2 nf2 na2 cfg2 := by
  rw [loadAux_step, h]

theorem loadAux_step_fail {rate : ℚ} {N i : ℕ} {pf pa nf na : ℚ} {cfg : Config}
    (h : advance rate (rate / (N : ℚ) * (i : ℚ)) pf pa nf na cfg = .parseError)
    (k : ℕ) (freq : ℕ → ℚ) :
    loadAux rate N i (k + 1) freq pf pa nf na cfg = .fail freq := by
  rw [loadAux_step, h]

theorem loadAux_step_diverge {rate : ℚ} {N i : ℕ} {pf pa nf na : ℚ} {cfg : Config}
    (h : advance rate (rate / (N : ℚ) * (i : ℚ)) pf pa nf na cfg = .diverge)
    (k : ℕ) (freq : ℕ → ℚ) :
    loadAux rate N i (k + 1) freq pf pa nf na cfg = .diverge freq := by
  rw [loadAux_step, h]

/-! Bounds on the bin frequencies rate / N * i. -/

theorem bin_freq_le_half {rate : ℚ} {N i : ℕ} (hrate : 0 < rate) (hN : 0 < N)
    (hi : i ≤ N / 2) : rate / (N : ℚ) * (i : ℚ) ≤ rate / 2 := by
  have h2i : (2 : ℚ) * (i : ℚ) ≤ (N : ℚ) := by
    exact_mod_cast (by omega : 2 * i ≤ N)
  have hNq : (0 : ℚ) < (N : ℚ) := by exact_mod_cast hN
  rw [div_mul_eq_mul_div, div_le_div_iff₀ hNq (by norm_num)]
  nlinarith

theorem bin_freq_lt {rate : ℚ} {N i : ℕ} (hrate : 0 < rate) (hN : 0 < N)
    (hi : i ≤ N / 2) : rate / (N : ℚ) * (i : ℚ) < rate := by
  have := bin_freq_le_half hrate hN hi
  linarith

theorem bin_freq_half {rate : ℚ} {N : ℕ} (hE : Even N) (hN : 0 < N) :
    rate / (N : ℚ) * ((N / 2 : ℕ) : ℚ) = rate / 2 := by
  obtain ⟨m, hm⟩ := hE
  have hm0 : 0 < m := by omega
  have h1 : N / 2 = m := by omega
  have h2 : ((N : ℕ) : ℚ) = 2 * (m : ℚ) := by
    rw [hm]; push_cast; ring
  rw [h1, h2]
  have : ((m : ℚ)) ≠ 0 := by exact_mod_cast hm0.ne'
  field_simp
  ring

/-- The buffer returned by the bin loop agrees with the input buffer below
the starting bin: the loop only writes at the current and later indices. -/
theorem loadAux_buf_below (rate : ℚ) (N : ℕ) :
    ∀ (k i : ℕ) (freq : ℕ → ℚ) (pf pa nf na : ℚ) (cfg : Config) (j : ℕ), j < i →
      (loadAux rate N i k freq pf pa nf na cfg).buf j = freq j := by
  intro k
  induction k with
  | zero => intro i freq pf pa nf na cfg j hj; rfl
  | succ k ih =>
    intro i freq pf pa nf na cfg j hj
    rw [loadAux_step]
    cases advance rate (rate / (N : ℚ) * (i : ℚ)) pf pa nf na cfg with
    | parseError => rfl
    | diverge => rfl
    | ok pf2 pa2 nf2 na2 cfg2 =>
      simp only []
      rw [ih (i + 1) _ pf2 pa2 nf2 na2 cfg2 j (by omega)]
      exact Function.update_noteq (by omega) _ freq

/-- With the input exhausted and next_amp = prev_amp, every bin whose
frequency stays below next_f stores exactly prev_amp. -/
theorem loadAux_flat (rate : ℚ) (N : ℕ) (pa nf : ℚ) :
    ∀ (k i : ℕ) (freq : ℕ → ℚ) (pf : ℚ),
      (∀ j, j < k → rate / (N : ℚ) * ((i + j : ℕ) : ℚ) < nf) →
      loadAux rate N i k freq pf pa nf pa [] =
        .ok (fun j => if i ≤ j ∧ j < i + k then pa else freq j) := by
  intro k
  induction k with
  | zero =>
    intro i freq pf _
    have : (fun j => if i ≤ j ∧ j < i + 0 then pa else freq j) = freq := by
      funext j
      rw [if_neg (by omega)]
    rw [this]
    rfl
  | succ k ih =>
    intro i freq pf hlt
    have hf0 : rate / (N : ℚ) * ((i : ℕ) : ℚ) < nf := by
      have := hlt 0 (by omega)
      simpa using this
    rw [loadAux_step, advance_nil_lt (not_le.mpr hf0)]
    simp only []
    have hv : ((rate / (N : ℚ) * (i : ℚ) - pf) / (nf - pf)) * (pa - pa) + pa = pa := by
      ring
    rw [hv]
    rw [ih (i + 1) _ pf (by
      intro j hj
      have := hlt (j + 1) (by omega)
      have he : (i + 1 + j : ℕ) = (i + (j + 1) : ℕ) := by omega
      rw [he]
      exact this)]
    congr 1
    funext j
    by_cases hji : j = i
    · subst hji
      rw [if_neg (by omega), Function.update_same, if_pos (by omega)]
    · rw [Function.update_noteq hji]
      by_cases hin : i + 1 ≤ j ∧ j < i + 1 + k
      · rw [if_pos hin, if_pos (by omega)]
      · rw [if_neg hin, if_neg (by omega)]

theorem isOk_exists {o : LoadOut} (h : o.isOk = true) : ∃ F, o = .ok F := by
  cases o with
  | ok F => exact ⟨F, rfl⟩
  | fail F => simp [LoadOut.isOk] at h
  | diverge F => simp [LoadOut.isOk] at h

theorem isFail_exists {o : LoadOut} (h : o.isFail = true) : ∃ F, o = .fail F := by
  cases o with
  | ok F => simp [LoadOut.isFail] at h
  | fail F => exact ⟨F, rfl⟩
  | diverge F => simp [LoadOut.isFail] at h

/-! Claim theorems. -/

/-- C8: for the empty configuration string the sampler succeeds and stores
gain exactly 1.0 into the frequency buffer at every bin index 0 .. N/2
inclusive. -/
theorem empty_config_unity_gain (rate : ℚ) (N : ℕ) (f0 : ℕ → ℚ)
    (hrate : 0 < rate) (hN : 0 < N) :
    (LoadFrequencyAmplification rate N [] f0).isOk = true ∧
    ∀ i, i ≤ N / 2 → (LoadFrequencyAmplification rate N [] f0).buf i = 1 := by
  have hf0 : rate / (N : ℚ) * ((0 : ℕ) : ℚ) = 0 := by simp
  have hrun : LoadFrequencyAmplification rate N [] f0 =
      loadAux rate N 1 (N / 2) (Function.update f0 0 1) 0 1 rate 1 [] := by
    rw [LoadFrequencyAmplification, loadAux_step, hf0,
      advance_nil_ge (le_refl 0) (not_le.mpr hrate)]
    have hv : ((0 - 0) / (rate - 0)) * (1 - 1) + 1 = (1 : ℚ) := by ring
    simp only [hv]
  have hflat := loadAux_flat rate N 1 rate (N / 2) 1 (Function.update f0 0 1) 0
    (by
      intro j hj
      exact bin_freq_lt hrate hN (by omega))
  rw [hrun, hflat]
  constructor
  · rfl
  · intro i hi
    show (if 1 ≤ i ∧ i < 1 + N / 2 then 1 else Function.update f0 0 1 i) = 1
    by_cases h1 : 1 ≤ i
    · rw [if_pos ⟨h1, by omega⟩]
    · have : i = 0 := by omega
      subst this
      rw [if_neg (by omega), Function.update_same]

/-- Witness for C8 at rate 8, N = 8. -/
theorem empty_config_unity_gain_witness :
    (LoadFrequencyAmplification 8 8 [] (fun _ => 0)).isOk = true ∧
    (LoadFrequencyAmplification 8 8 [] (fun _ => 0)).buf 4 = 1 :=
  ⟨(empty_config_unity_gain 8 8 (fun _ => 0) (by norm_num) (by norm_num)).1,
    (empty_config_unity_gain 8 8 (fun _ => 0) (by norm_num) (by norm_num)).2 4 (by norm_num)⟩

/-- C10: the sampler consumes breakpoint pairs only while a bin frequency
reaches the next parsed frequency, so a configuration whose first pair lies
beyond Nyquist is accepted even when the trailing text is malformed
(here a scan failure) or non-monotonic (here a frequency drop): the reload
succeeds and the trailing text is never scanned.  rate 8, N 8: bin
frequencies are 0..4 and the first parsed frequency is 5 or 6. -/
theorem trailing_text_unscanned_success :
    (∃ s, EqualizerLoad 8 8 [.pair 5 2, .bad] ⟨fun _ => 0, fun _ => 0⟩ = some (s, true)) ∧
    (∃ s, EqualizerLoad 8 8 [.pair 6 7, .pair 2 1] ⟨fun _ => 0, fun _ => 0⟩ =
      some (s, true)) := by
  constructor
  · obtain ⟨F, hF⟩ := isOk_exists
      (show (LoadFrequencyAmplification 8 8 [.pair 5 2, .bad] (fun _ => 0)).isOk = true by
        norm_num [LoadFrequencyAmplification, loadAux, advance, LoadOut.isOk])
    exact ⟨_, by unfold EqualizerLoad; rw [hF]⟩
  · obtain ⟨F, hF⟩ := isOk_exists
      (show (LoadFrequencyAmplification 8 8 [.pair 6 7, .pair 2 1] (fun _ => 0)).isOk =
          true by
        norm_num [LoadFrequencyAmplification, loadAux, advance, LoadOut.isOk])
    exact ⟨_, by unfold EqualizerLoad; rw [hF]⟩

/-- C1 counterexample: a failed reload does mutate the frequency-domain
buffer.  Starting from a buffer holding 7 everywhere, a reload whose text
fails to scan returns failure, yet afterwards freq slot 0 holds 0 (the
memset at line 131 cleared it), not 7. -/
theorem failed_reload_mutates_freq_buffer :
    ∃ s, EqualizerLoad 8 8 [.bad] ⟨fun _ => 0, fun _ => 7⟩ = some (s, false) ∧
      s.freq 0 = 0 ∧ EqState.freq ⟨fun _ => 0, fun _ => 7⟩ 0 = 7 := by
  obtain ⟨F, hF⟩ := isFail_exists
    (show (LoadFrequencyAmplification 8 8 [.bad] (fun _ => 0)).isFail = true by
      norm_num [LoadFrequencyAmplification, loadAux, advance, LoadOut.isFail])
  have hF0 : F 0 = 0 := by
    have hb : (LoadFrequencyAmplification 8 8 [.bad] (fun _ => 0)).buf 0 = 0 := by
      norm_num [LoadFrequencyAmplification, loadAux, advance, LoadOut.buf]
    rw [hF] at hb
    exact hb
  refine ⟨⟨EqState.time ⟨fun _ => 0, fun _ => 7⟩,
      fun i => if i < 8 then ((F i : ℚ) : ℝ) else EqState.freq ⟨fun _ => 0, fun _ => 7⟩ i⟩,
    ?_, ?_, rfl⟩
  · unfold EqualizerLoad
    rw [hF]
  · show (if (0 : ℕ) < 8 then ((F 0 : ℚ) : ℝ) else EqState.freq ⟨fun _ => 0, fun _ => 7⟩ 0)
        = 0
    rw [if_pos (by norm_num), hF0]
    norm_num

/-- C1 amended: on a failed reload the time-domain buffer (the active
filter) is not mutated; the frequency-domain buffer, however, is cleared
and holds the gains sampled before the failure point. -/
theorem failed_reload_preserves_time_buffer (rate : ℚ) (N : ℕ) (cfg : Config)
    (st s : EqState) (h : EqualizerLoad rate N cfg st = some (s, false)) :
    s.time = st.time := by
  unfold EqualizerLoad at h
  rcases hL : LoadFrequencyAmplification rate N cfg (fun _ => 0) with F | F | F <;>
    rw [hL] at h
  · simp at h
  · simp only [Option.some.injEq, Prod.mk.injEq] at h
    rw [← h.1]
  · simp at h

/-- Witness for the amended C1. -/
theorem failed_reload_preserves_time_buffer_witness :
    ∃ s, EqualizerLoad 8 8 [.bad] ⟨fun _ => 0, fun _ => 7⟩ = some (s, false) ∧
      s.time = EqState.time ⟨fun _ => 0, fun _ => 7⟩ := by
  obtain ⟨F, hF⟩ := isFail_exists
    (show (LoadFrequencyAmplification 8 8 [.bad] (fun _ => 0)).isFail = true by
      norm_num [LoadFrequencyAmplification, loadAux, advance, LoadOut.isFail])
  obtain ⟨s, hld⟩ :
      ∃ s, EqualizerLoad 8 8 [.bad] ⟨fun _ => 0, fun _ => 7⟩ = some (s, false) :=
    ⟨_, by unfold EqualizerLoad; rw [hF]⟩
  exact ⟨s, hld, failed_reload_preserves_time_buffer 8 8 [.bad] _ s hld⟩

/-- C2 counterexample: a configuration with two breakpoints whose second
frequency (1) is below the first (5) is nevertheless accepted, because the
first frequency lies beyond Nyquist (4) and the second pair is never
scanned: the reload succeeds instead of returning ParseError. -/
theorem nonmonotonic_beyond_nyquist_accepted :
    ∃ s, EqualizerLoad 8 8 [.pair 5 2, .pair 1 3] ⟨fun _ => 0, fun _ => 0⟩ =
      some (s, true) := by
  obtain ⟨F, hF⟩ := isOk_exists
    (show (LoadFrequencyAmplification 8 8 [.pair 5 2, .pair 1 3] (fun _ => 0)).isOk =
        true by
      norm_num [LoadFrequencyAmplification, loadAux, advance, LoadOut.isOk])
  exact ⟨_, by unfold EqualizerLoad; rw [hF]⟩

/-- Once the cursor has scanned a first pair (f1, a1) and the remaining
text is a single pair with frequency f2 ≤ f1, the bin loop fails as soon
as some bin frequency reaches f1. -/
theorem loadAux_two_pair_fail (rate : ℚ) (N : ℕ) (f1 a1 f2 a2 : ℚ)
    (hmono : f2 ≤ f1) :
    ∀ (k i : ℕ) (freq : ℕ → ℚ),
      f1 ≤ rate / (N : ℚ) * ((i + k : ℕ) : ℚ) →
      (loadAux rate N i (k + 1) freq 0 a1 f1 a1 [.pair f2 a2]).isFail = true := by
  intro k
  induction k with
  | zero =>
    intro i freq hle
    rw [loadAux_step]
    have hge : rate / (N : ℚ) * ((i : ℕ) : ℚ) ≥ f1 := by simpa using hle
    rw [advance_cons_pair_err hge hmono]
    rfl
  | succ k ih =>
    intro i freq hle
    rw [loadAux_step]
    by_cases hge : rate / (N : ℚ) * ((i : ℕ) : ℚ) ≥ f1
    · rw [advance_cons_pair_err hge hmono]
      rfl
    · rw [advance_cons_lt hge]
      simp only []
      refine ih (i + 1) _ ?_
      have he : (i + 1 + k : ℕ) = (i + (k + 1) : ℕ) := by omega
      rw [he]
      exact hle

/-- C2 amended: a configuration of two breakpoints with second frequency
at most the first is rejected with ParseError — provided the second pair
is actually reached, i.e. the first frequency is at most the Nyquist
frequency rate / 2 — and the time-domain buffer is left unchanged. -/
theorem nonmonotonic_pair_reached_rejected (rate : ℚ) (N : ℕ) (f1 a1 f2 a2 : ℚ)
    (st : EqState) (hrate : 0 < rate) (hN : 0 < N) (hE : Even N)
    (hmono : f2 ≤ f1) (hcov : f1 ≤ rate / 2) :
    ∃ s, EqualizerLoad rate N [.pair f1 a1, .pair f2 a2] st = some (s, false) ∧
      s.time = st.time := by
  have h2 : 2 ≤ N := by
    obtain ⟨m, hm⟩ := hE
    omega
  have hfail : (LoadFrequencyAmplification rate N [.pair f1 a1, .pair f2 a2]
      (fun _ => 0)).isFail = true := by
    rw [LoadFrequencyAmplification, loadAux_step]
    have hf0 : rate / (N : ℚ) * ((0 : ℕ) : ℚ) = 0 := by simp
    rw [hf0]
    by_cases hpos : f1 ≤ 0
    · rw [advance_cons_pair_err (le_refl 0) hpos]
      rfl
    · rw [advance_cons_pair (le_refl 0) hpos, if_pos rfl, advance_cons_lt hpos]
      simp only []
      have hsplit : N / 2 = (N / 2 - 1) + 1 := by omega
      rw [hsplit]
      refine loadAux_two_pair_fail rate N f1 a1 f2 a2 hmono (N / 2 - 1) 1 _ ?_
      have he : (1 + (N / 2 - 1) : ℕ) = (N / 2 : ℕ) := by omega
      rw [he, bin_freq_half hE hN]
      exact hcov
  obtain ⟨F, hF⟩ := isFail_exists hfail
  refine ⟨⟨st.time, fun i => if i < N then ((F i : ℚ) : ℝ) else st.freq i⟩, ?_, rfl⟩
  unfold EqualizerLoad
  rw [hF]

/-- Witness for the amended C2: rate 8, N 8, breakpoints (4, 2), (1, 3);
the first frequency 4 equals Nyquist, so the second pair is scanned. -/
theorem nonmonotonic_pair_reached_rejected_witness :
    ∃ s, EqualizerLoad 8 8 [.pair 4 2, .pair 1 3] ⟨fun _ => 0, fun _ => 0⟩ =
      some (s, false) ∧ s.time = EqState.time ⟨fun _ => 0, fun _ => 0⟩ :=
  nonmonotonic_pair_reached_rejected 8 8 4 2 1 3 ⟨fun _ => 0, fun _ => 0⟩
    (by norm_num) (by norm_num) (by decide) (by norm_num) (by norm_num)

theorem loadAux_zero (rate : ℚ) (N i : ℕ) (freq : ℕ → ℚ) (pf pa nf na : ℚ)
    (cfg : Config) : loadAux rate N i 0 freq pf pa nf na cfg = .ok freq := rfl

theorem toCfg_nil : toCfg [] = [] := rfl

theorem toCfg_cons (g b : ℚ) (qs : List (ℚ × ℚ)) :
    toCfg ((g, b) :: qs) = ConfigTok.pair g b :: toCfg qs := rfl

theorem lastAmp_nil (d : ℚ) : lastAmp [] d = d := rfl

theorem lastAmp_cons (g b d : ℚ) (qs : List (ℚ × ℚ)) :
    lastAmp ((g, b) :: qs) d = lastAmp qs b := by
  cases qs with
  | nil => rfl
  | cons q qs =>
    unfold lastAmp
    rw [List.getLast?_cons_cons, List.getLast?_eq_getLast (q :: qs) (by simp)]
    rfl

theorem lastAmp_eq_getLast (ps : List (ℚ × ℚ)) (hne : ps ≠ []) (d : ℚ) :
    lastAmp ps d = (ps.getLast hne).2 := by
  unfold lastAmp
  rw [List.getLast?_eq_getLast ps hne]
  rfl

/-- When every remaining breakpoint frequency is at most f (and the cursor
frequency has been reached), the while loop consumes the whole remaining
text: it either hits the monotonicity check, or ends in the exhausted
branch with next_f = rate and both amplifications equal to the last
breakpoint amplification. -/
theorem advance_consume (rate f : ℚ) :
    ∀ (qs : List (ℚ × ℚ)) (pf pa nf na : ℚ),
      (∀ p ∈ qs, p.1 ≤ f) → nf ≤ f → f < rate →
      advance rate f pf pa nf na (toCfg qs) = .parseError ∨
      ∃ pf2, advance rate f pf pa nf na (toCfg qs) =
        .ok pf2 (lastAmp qs na) rate (lastAmp qs na) [] := by
  intro qs
  induction qs with
  | nil =>
    intro pf pa nf na _ hnf hf
    right
    refine ⟨nf, ?_⟩
    rw [toCfg_nil, advance_nil_ge hnf (not_le.mpr hf), lastAmp_nil]
  | cons p qs ih =>
    intro pf pa nf na hall hnf hf
    obtain ⟨g, b⟩ := p
    rw [toCfg_cons]
    by_cases hmono : g ≤ nf
    · left
      rw [advance_cons_pair_err hnf hmono]
    · rw [advance_cons_pair hnf hmono]
      have hg : g ≤ f := hall (g, b) (List.mem_cons_self _ _)
      rcases ih nf (if nf = 0 then b else na) g b
          (fun p hp => hall p (List.mem_cons_of_mem _ hp)) hg hf with h | ⟨pf2, h⟩
      · left
        exact h
      · right
        refine ⟨pf2, ?_⟩
        rw [lastAmp_cons]
        exact h

/-- For a bin frequency at most Nyquist, the while loop keeps the
invariant needed at the final bin: it fails, or ends in the exhausted
state with both amplifications equal to the last breakpoint amplification,
or stops at a state whose next_f is still at most Nyquist with the
remaining breakpoints carrying the same last amplification. -/
theorem advance_keep (rate f : ℚ) :
    ∀ (qs : List (ℚ × ℚ)) (pf pa nf na : ℚ),
      (∀ p ∈ qs, p.1 ≤ rate / 2) → nf ≤ rate / 2 → f ≤ rate / 2 → f < rate →
      advance rate f pf pa nf na (toCfg qs) = .parseError ∨
      (∃ pf2 pa2, advance rate f pf pa nf na (toCfg qs) = .ok pf2 pa2 rate pa2 [] ∧
        pa2 = lastAmp qs na) ∨
      (∃ pf2 pa2 nf2 na2 qs2,
        advance rate f pf pa nf na (toCfg qs) = .ok pf2 pa2 nf2 na2 (toCfg qs2) ∧
        nf2 ≤ rate / 2 ∧ lastAmp qs2 na2 = lastAmp qs na ∧
        ∀ p ∈ qs2, p.1 ≤ rate / 2) := by
  intro qs
  induction qs with
  | nil =>
    intro pf pa nf na _ hnf hhalf hf
    by_cases hge : f ≥ nf
    · right; left
      refine ⟨nf, na, ?_, ?_⟩
      · rw [toCfg_nil, advance_nil_ge hge (not_le.mpr hf)]
      · rw [lastAmp_nil]
    · right; right
      refine ⟨pf, pa, nf, na, [], ?_, hnf, rfl, by simp⟩
      rw [toCfg_nil, advance_nil_lt hge]
  | cons p qs ih =>
    intro pf pa nf na hall hnf hhalf hf
    obtain ⟨g, b⟩ := p
    rw [toCfg_cons]
    by_cases hge : f ≥ nf
    · by_cases hmono : g ≤ nf
      · left
        rw [advance_cons_pair_err hge hmono]
      · rw [advance_cons_pair hge hmono]
        have hg : g ≤ rate / 2 := hall (g, b) (List.mem_cons_self _ _)
        have htail : ∀ p ∈ qs, p.1 ≤ rate / 2 :=
          fun p hp => hall p (List.mem_cons_of_mem _ hp)
        rcases ih nf (if nf = 0 then b else na) g b htail hg hhalf hf with
          h | ⟨pf2, pa2, h, hla⟩ | ⟨pf2, pa2, nf2, na2, qs2, h, hnf2, hla, hq2⟩
        · left
          exact h
        · right; left
          refine ⟨pf2, pa2, h, ?_⟩
          rw [lastAmp_cons]
          exact hla
        · right; right
          refine ⟨pf2, pa2, nf2, na2, qs2, h, hnf2, ?_, hq2⟩
          rw [lastAmp_cons]
          exact hla
    · right; right
      refine ⟨pf, pa, nf, na, (g, b) :: qs, ?_, hnf, rfl, hall⟩
      rw [toCfg_cons, advance_cons_lt hge]

/-- Invariant-carrying run of the bin loop up to and including the last
bin N/2: when every breakpoint frequency is at most Nyquist, a successful
run stores the last breakpoint amplification at bin N/2. -/
theorem loadAux_last (rate : ℚ) (N : ℕ) (hrate : 0 < rate) (hN : 0 < N)
    (hE : Even N) (la : ℚ) :
    ∀ (k i : ℕ) (freq : ℕ → ℚ) (pf pa nf na : ℚ) (qs : List (ℚ × ℚ)) (F : ℕ → ℚ),
      i + k = N / 2 + 1 → 1 ≤ k →
      (∀ p ∈ qs, p.1 ≤ rate / 2) →
      ((qs = [] ∧ nf = rate ∧ na = pa ∧ pa = la) ∨
        (nf ≤ rate / 2 ∧ lastAmp qs na = la)) →
      loadAux rate N i k freq pf pa nf na (toCfg qs) = .ok F →
      F (N / 2) = la := by
  intro k
  induction k with
  | zero =>
    intro i freq pf pa nf na qs F _ hk1
    omega
  | succ k ih =>
    intro i freq pf pa nf na qs F hik hk1 hqs hinv hok
    have hfhalf : rate / (N : ℚ) * ((N / 2 : ℕ) : ℚ) = rate / 2 :=
      bin_freq_half hE hN
    by_cases hkz : k = 0
    · subst hkz
      have hi : i = N / 2 := by omega
      subst hi
      rcases hinv with ⟨hqsnil, hnfr, hnapa, hpala⟩ | ⟨hnf, hla⟩
      · subst hqsnil
        have hadv : advance rate (rate / (N : ℚ) * ((N / 2 : ℕ) : ℚ)) pf pa nf na
            (toCfg []) = .ok pf pa nf na (toCfg []) := by
          refine advance_lt (not_le.mpr ?_)
          rw [hfhalf, hnfr]
          linarith
        rw [loadAux_step_ok hadv, loadAux_zero] at hok
        injection hok with h
        rw [← h, Function.update_same, hnapa, hpala]
        ring
      · rcases advance_consume rate (rate / 2) qs pf pa nf na hqs hnf
            (by linarith) with h | ⟨pf2, h⟩
        · have hadv : advance rate (rate / (N : ℚ) * ((N / 2 : ℕ) : ℚ)) pf pa nf na
              (toCfg qs) = .parseError := by
            rw [hfhalf]
            exact h
          rw [loadAux_step_fail hadv] at hok
          exact absurd hok (by simp)
        · have hadv : advance rate (rate / (N : ℚ) * ((N / 2 : ℕ) : ℚ)) pf pa nf na
              (toCfg qs) = .ok pf2 (lastAmp qs na) rate (lastAmp qs na) [] := by
            rw [hfhalf]
            exact h
          rw [loadAux_step_ok hadv, loadAux_zero] at hok
          injection hok with h2
          rw [← h2, Function.update_same, hla]
          ring
    · have hi : i ≤ N / 2 := by omega
      have hfle : rate / (N : ℚ) * ((i : ℕ) : ℚ) ≤ rate / 2 :=
        bin_freq_le_half hrate hN hi
      have hflt : rate / (N : ℚ) * ((i : ℕ) : ℚ) < rate := bin_freq_lt hrate hN hi
      rcases hinv with ⟨hqsnil, hnfr, hnapa, hpala⟩ | ⟨hnf, hla⟩
      · subst hqsnil
        have hadv : advance rate (rate / (N : ℚ) * ((i : ℕ) : ℚ)) pf pa nf na
            (toCfg []) = .ok pf pa nf na (toCfg []) := by
          refine advance_lt (not_le.mpr ?_)
          rw [hnfr]
          linarith
        rw [loadAux_step_ok hadv] at hok
        exact ih (i + 1) _ pf pa nf na [] F (by omega) (by omega) (by simp)
          (Or.inl ⟨rfl, hnfr, hnapa, hpala⟩) hok
      · rcases advance_keep rate (rate / (N : ℚ) * ((i : ℕ) : ℚ)) qs pf pa nf na
            hqs hnf hfle hflt with
          h | ⟨pf2, pa2, h, hla2⟩ | ⟨pf2, pa2, nf2, na2, qs2, h, hnf2, hla2, hq2⟩
        · rw [loadAux_step_fail h] at hok
          exact absurd hok (by simp)
        · rw [show ([] : Config) = toCfg [] from rfl] at h
          rw [loadAux_step_ok h] at hok
          refine ih (i + 1) _ pf2 pa2 rate pa2 [] F (by omega) (by omega) (by simp)
            (Or.inl ⟨rfl, rfl, rfl, ?_⟩) hok
          rw [hla2, hla]
        · rw [loadAux_step_ok h] at hok
          refine ih (i + 1) _ pf2 pa2 nf2 na2 qs2 F (by omega) (by omega) hq2
            (Or.inr ⟨hnf2, ?_⟩) hok
          rw [hla2, hla]

/-- C3 counterexample: rate 8, N 8 (Nyquist 4, bin frequencies 0..4), the
strictly increasing breakpoints (1, 2), (6, 5) are accepted, yet bin
N/2 = 4 stores the interpolated 19/5, not the last breakpoint gain 5,
because the last breakpoint lies beyond Nyquist.  Bin 0 still holds the
first breakpoint gain 2. -/
theorem nyquist_bin_not_last_gain_example :
    (LoadFrequencyAmplification 8 8 (toCfg [(1, 2), (6, 5)]) (fun _ => 0)).isOk = true ∧
    (LoadFrequencyAmplification 8 8 (toCfg [(1, 2), (6, 5)]) (fun _ => 0)).buf 0 = 2 ∧
    (LoadFrequencyAmplification 8 8 (toCfg [(1, 2), (6, 5)]) (fun _ => 0)).buf 4 = 19 / 5 ∧
    lastAmp [(1, 2), (6, 5)] 1 = 5 ∧ (19 : ℚ) / 5 ≠ 5 := by
  refine ⟨?_, ?_, ?_, by norm_num [lastAmp], by norm_num⟩
  · norm_num [toCfg, LoadFrequencyAmplification, loadAux, advance, LoadOut.isOk]
  · norm_num [toCfg, LoadFrequencyAmplification, loadAux, advance, LoadOut.buf,
      Function.update]
  · norm_num [toCfg, LoadFrequencyAmplification, loadAux, advance, LoadOut.buf,
      Function.update]

/-- C3 amended: for every valid non-empty breakpoint sequence accepted by
the parser, the sampled gain at bin 0 equals the first explicit breakpoint
gain, unconditionally; and, provided every breakpoint frequency is at most
the Nyquist frequency rate / 2, the sampled gain at bin N/2 equals the
last explicit breakpoint gain. -/
theorem bin0_first_gain_nyquist_last_gain (rate : ℚ) (N : ℕ)
    (ps : List (ℚ × ℚ)) (f0 F : ℕ → ℚ) (hrate : 0 < rate) (hN : 0 < N)
    (hE : Even N) (hne : ps ≠ [])
    (hok : LoadFrequencyAmplification rate N (toCfg ps) f0 = .ok F) :
    F 0 = (ps.head hne).2 ∧
    ((∀ p ∈ ps, p.1 ≤ rate / 2) → F (N / 2) = (ps.getLast hne).2) := by
  have h2 : 2 ≤ N := by
    obtain ⟨m, hm⟩ := hE
    omega
  obtain ⟨p, rest, rfl⟩ := List.exists_cons_of_ne_nil hne
  obtain ⟨g1, b1⟩ := p
  rw [LoadFrequencyAmplification] at hok
  have hf0 : rate / (N : ℚ) * ((0 : ℕ) : ℚ) = 0 := by simp
  by_cases hg1 : g1 ≤ 0
  · have hadv : advance rate (rate / (N : ℚ) * ((0 : ℕ) : ℚ)) 0 1 0 1
        (toCfg ((g1, b1) :: rest)) = .parseError := by
      rw [hf0, toCfg_cons]
      exact advance_cons_pair_err (le_refl 0) hg1
    rw [loadAux_step_fail hadv] at hok
    exact absurd hok (by simp)
  · have hadv : advance rate (rate / (N : ℚ) * ((0 : ℕ) : ℚ)) 0 1 0 1
        (toCfg ((g1, b1) :: rest)) = .ok 0 b1 g1 b1 (toCfg rest) := by
      rw [hf0, toCfg_cons, advance_cons_pair (le_refl 0) hg1, if_pos rfl]
      exact advance_lt hg1
    rw [loadAux_step_ok hadv] at hok
    constructor
    · have hb := loadAux_buf_below rate N (N / 2) (0 + 1)
        (Function.update f0 0
          (((rate / (N : ℚ) * ((0 : ℕ) : ℚ) - 0) / (g1 - 0)) * (b1 - b1) + b1))
        0 b1 g1 b1 (toCfg rest) 0 (by omega)
      rw [hok] at hb
      rw [show (LoadOut.ok F).buf = F from rfl] at hb
      rw [hb, Function.update_same, List.head_cons]
      ring
    · intro hcov
      have hla : lastAmp rest b1 = (((g1, b1) :: rest).getLast hne).2 := by
        rw [← lastAmp_cons g1 b1 1 rest, lastAmp_eq_getLast]
      refine loadAux_last rate N hrate hN hE _ (N / 2) (0 + 1) _ 0 b1 g1 b1 rest F
        (by omega) (by omega)
        (fun p hp => hcov p (List.mem_cons_of_mem _ hp))
        (Or.inr ⟨hcov (g1, b1) (List.mem_cons_self _ _), hla⟩) hok

/-- Witness for the amended C3: rate 8, N 8, breakpoints (1, 2), (3, 5),
both at or below Nyquist 4. -/
theorem bin0_first_gain_nyquist_last_gain_witness :
    ∃ F, LoadFrequencyAmplification 8 8 (toCfg [(1, 2), (3, 5)]) (fun _ => 0) =
        .ok F ∧ F 0 = 2 ∧ F 4 = 5 := by
  obtain ⟨F, hF⟩ := isOk_exists
    (show (LoadFrequencyAmplification 8 8 (toCfg [(1, 2), (3, 5)]) (fun _ => 0)).isOk =
        true by
      norm_num [toCfg, LoadFrequencyAmplification, loadAux, advance, LoadOut.isOk])
  have h := bin0_first_gain_nyquist_last_gain 8 8 [(1, 2), (3, 5)] (fun _ => 0) F
    (by norm_num) (by norm_num) (by decide) (by simp) hF
  refine ⟨F, hF, ?_, ?_⟩
  · simpa using h.1
  · have hcov : ∀ p ∈ ([(1, 2), (3, 5)] : List (ℚ × ℚ)), p.1 ≤ (8 : ℚ) / 2 := by
      intro p hp
      rcases List.mem_cons.mp hp with h1 | h1
      · rw [h1]
        norm_num
      · rcases List.mem_cons.mp h1 with h2 | h2
        · rw [h2]
          norm_num
        · simp at h2
    simpa using h.2 hcov

theorem chainFrom_shift (rate : ℚ) (N : ℕ) :
    ∀ (j i : ℕ) (pf pa nf na pf2 pa2 nf2 na2 : ℚ) (cfg c2 : Config),
      advance rate (rate / (N : ℚ) * (i : ℚ)) pf pa nf na cfg =
        .ok pf2 pa2 nf2 na2 c2 →
      chainFrom rate N i pf pa nf na cfg (j + 1) =
        chainFrom rate N (i + 1) pf2 pa2 nf2 na2 c2 j := by
  intro j
  induction j with
  | zero =>
    intro i pf pa nf na pf2 pa2 nf2 na2 cfg c2 h
    have e1 : chainFrom rate N i pf pa nf na cfg (0 + 1) =
        (match chainFrom rate N i pf pa nf na cfg 0 with
         | ScanResult.ok a b c d e =>
           advance rate (rate / (N : ℚ) * ((i + 0 + 1 : ℕ) : ℚ)) a b c d e
         | r => r) := rfl
    have e0 : chainFrom rate N i pf pa nf na cfg 0 =
        advance rate (rate / (N : ℚ) * (i : ℚ)) pf pa nf na cfg := rfl
    rw [e1, e0, h]
    rfl
  | succ j ihj =>
    intro i pf pa nf na pf2 pa2 nf2 na2 cfg c2 h
    have h1 := ihj i pf pa nf na pf2 pa2 nf2 na2 cfg c2 h
    have e1 : chainFrom rate N i pf pa nf na cfg (j + 1 + 1) =
        (match chainFrom rate N i pf pa nf na cfg (j + 1) with
         | ScanResult.ok a b c d e =>
           advance rate (rate / (N : ℚ) * ((i + (j + 1) + 1 : ℕ) : ℚ)) a b c d e
         | r => r) := rfl
    have e2 : chainFrom rate N (i + 1) pf2 pa2 nf2 na2 c2 (j + 1) =
        (match chainFrom rate N (i + 1) pf2 pa2 nf2 na2 c2 j with
         | ScanResult.ok a b c d e =>
           advance rate (rate / (N : ℚ) * ((i + 1 + j + 1 : ℕ) : ℚ)) a b c d e
         | r => r) := rfl
    rw [e1, e2, h1]
    have he : (i + (j + 1) + 1 : ℕ) = (i + 1 + j + 1 : ℕ) := by omega
    rw [he]

/-- A successful run of the bin loop implies that the chain of cursor
states is well defined (no parse error, no divergence) at every processed
bin. -/
theorem loadAux_ok_chain (rate : ℚ) (N : ℕ) :
    ∀ (k i : ℕ) (freq : ℕ → ℚ) (pf pa nf na : ℚ) (cfg : Config) (F : ℕ → ℚ),
      loadAux rate N i k freq pf pa nf na cfg = .ok F →
      ∀ j, j < k →
        ∃ a b c d e, chainFrom rate N i pf pa nf na cfg j = .ok a b c d e := by
  intro k
  induction k with
  | zero =>
    intro i freq pf pa nf na cfg F _ j hj
    omega
  | succ k ih =>
    intro i freq pf pa nf na cfg F hok j hj
    cases hadv : advance rate (rate / (N : ℚ) * (i : ℚ)) pf pa nf na cfg with
    | ok a b c d e =>
      cases j with
      | zero => exact ⟨a, b, c, d, e, hadv⟩
      | succ j =>
        rw [loadAux_step_ok hadv] at hok
        rw [chainFrom_shift rate N j i pf pa nf na a b c d cfg e hadv]
        exact ih (i + 1) _ a b c d e F hok j (by omega)
    | parseError =>
      rw [loadAux_step_fail hadv] at hok
      exact absurd hok (by simp)
    | diverge =>
      rw [loadAux_step_diverge hadv] at hok
      exact absurd hok (by simp)

/-- Any ok outcome of the while loop has prev_f strictly below next_f,
provided the bin frequency is below the rate and the incoming state already
satisfied the invariant or triggers at least one iteration. -/
theorem advance_ok_pos (rate f : ℚ) (hf : f < rate) :
    ∀ (cfg : Config) (pf pa nf na pf2 pa2 nf2 na2 : ℚ) (c2 : Config),
      (pf < nf ∨ nf ≤ f) →
      advance rate f pf pa nf na cfg = .ok pf2 pa2 nf2 na2 c2 →
      pf2 < nf2 := by
  intro cfg
  induction cfg with
  | nil =>
    intro pf pa nf na pf2 pa2 nf2 na2 c2 hd h
    by_cases hge : f ≥ nf
    · rw [advance_nil_ge hge (not_le.mpr hf)] at h
      injection h with h1 h2 h3 h4 h5
      rw [← h1, ← h3]
      exact lt_of_le_of_lt hge hf
    · rw [advance_nil_lt hge] at h
      injection h with h1 h2 h3 h4 h5
      rw [← h1, ← h3]
      rcases hd with hd | hd
      · exact hd
      · exact absurd hd hge
  | cons t rest ih =>
    intro pf pa nf na pf2 pa2 nf2 na2 c2 hd h
    by_cases hge : f ≥ nf
    · cases t with
      | bad =>
        rw [advance_cons_bad hge] at h
        exact absurd h (by simp)
      | pair g b =>
        by_cases hmono : g ≤ nf
        · rw [advance_cons_pair_err hge hmono] at h
          exact absurd h (by simp)
        · rw [advance_cons_pair hge hmono] at h
          exact ih nf _ g b pf2 pa2 nf2 na2 c2 (Or.inl (not_le.mp hmono)) h
    · rw [advance_cons_lt hge] at h
      injection h with h1 h2 h3 h4 h5
      rw [← h1, ← h3]
      rcases hd with hd | hd
      · exact hd
      · exact absurd hd hge

/-- Along any run reaching bin i ≤ N/2, the cursor state satisfies
prev_f < next_f. -/
theorem chainFrom_pos (rate : ℚ) (N : ℕ) (hrate : 0 < rate) (hN : 0 < N)
    (cfg : Config) :
    ∀ (i : ℕ), i ≤ N / 2 →
      ∀ a b c d e, binStates rate N cfg i = .ok a b c d e → a < c := by
  intro i
  induction i with
  | zero =>
    intro hi a b c d e h
    refine advance_ok_pos rate (rate / (N : ℚ) * ((0 : ℕ) : ℚ))
      (bin_freq_lt hrate hN (by omega)) cfg 0 1 0 1 a b c d e (Or.inr ?_) h
    simp
  | succ i ihi =>
    intro hi a b c d e h
    have e1 : binStates rate N cfg (i + 1) =
        (match binStates rate N cfg i with
         | ScanResult.ok a2 b2 c2 d2 e2 =>
           advance rate (rate / (N : ℚ) * ((0 + i + 1 : ℕ) : ℚ)) a2 b2 c2 d2 e2
         | r => r) := rfl
    rw [e1] at h
    cases hb : binStates rate N cfg i with
    | ok a2 b2 c2 d2 e2 =>
      rw [hb] at h
      have hpos := ihi (by omega) a2 b2 c2 d2 e2 hb
      refine advance_ok_pos rate (rate / (N : ℚ) * ((0 + i + 1 : ℕ) : ℚ))
        (bin_freq_lt hrate hN (by omega)) e2 a2 b2 c2 d2 a b c d e (Or.inl hpos) h
    | parseError =>
      rw [hb] at h
      exact absurd h (by simp)
    | diverge =>
      rw [hb] at h
      exact absurd h (by simp)

/-- C9: for every configuration accepted by the parser and every bin
index i in 0 .. N/2, the interpolation divisor next_f - prev_f is strictly
positive at the moment the bin gain is computed, so the gain computation
at line 106 never divides by zero. -/
theorem interp_divisor_pos (rate : ℚ) (N : ℕ) (cfg : Config) (f0 : ℕ → ℚ)
    (hrate : 0 < rate) (hN : 0 < N)
    (hok : (LoadFrequencyAmplification rate N cfg f0).isOk = true) :
    ∀ i, i ≤ N / 2 →
      ∃ pf pa nf na c, binStates rate N cfg i = .ok pf pa nf na c ∧
        0 < nf - pf := by
  intro i hi
  obtain ⟨F, hF⟩ := isOk_exists hok
  rw [LoadFrequencyAmplification] at hF
  obtain ⟨a, b, c, d, e, hch⟩ :=
    loadAux_ok_chain rate N (N / 2 + 1) 0 f0 0 1 0 1 cfg F hF i (by omega)
  refine ⟨a, b, c, d, e, hch, ?_⟩
  have := chainFrom_pos rate N hrate hN cfg i hi a b c d e hch
  linarith

/-- Witness for C9 at rate 8, N 8, empty configuration, bin 4. -/
theorem interp_divisor_pos_witness :
    ∃ pf pa nf na c, binStates 8 8 [] 4 = .ok pf pa nf na c ∧ 0 < nf - pf :=
  interp_divisor_pos 8 8 [] (fun _ => 0) (by norm_num) (by norm_num)
    (by norm_num [LoadFrequencyAmplification, loadAux, advance, LoadOut.isOk])
    4 (by norm_num)

/-- C5: for a frequency buffer whose sine slots N/2 + 1 .. N - 1 are all
zero (which is how the sampler leaves the buffer: it writes only bins
0 .. N/2 over the memset zeros), the unwindowed inverse real transform
output is symmetric: the value at index j equals the value at index N - j
for every j in 1 .. N/2 - 1. -/
theorem hc2r_symmetric (N : ℕ) (F : ℕ → ℝ) (j : ℕ) (hE : Even N)
    (hzero : ∀ m, N / 2 < m → m < N → F m = 0)
    (h1 : 1 ≤ j) (h2 : j < N / 2) :
    hc2r N F j = hc2r N F (N - j) := by
  have hjN : j ≤ N := by omega
  unfold hc2r
  have hpow : ((-1 : ℝ)) ^ (N - j) = (-1 : ℝ) ^ j := by
    have hadd : ((-1 : ℝ)) ^ (N - j) * (-1 : ℝ) ^ j = (-1 : ℝ) ^ N := by
      rw [← pow_add, Nat.sub_add_cancel hjN]
    have hN1 : ((-1 : ℝ)) ^ N = 1 := Even.neg_one_pow hE
    have hj2 : ((-1 : ℝ)) ^ j * (-1 : ℝ) ^ j = 1 := by
      rw [← pow_add]
      exact Even.neg_one_pow ⟨j, rfl⟩
    calc ((-1 : ℝ)) ^ (N - j)
        = ((-1 : ℝ)) ^ (N - j) * (((-1 : ℝ)) ^ j * ((-1 : ℝ)) ^ j) := by
          rw [hj2, mul_one]
      _ = (((-1 : ℝ)) ^ (N - j) * ((-1 : ℝ)) ^ j) * ((-1 : ℝ)) ^ j := by ring
      _ = ((-1 : ℝ)) ^ j := by rw [hadd, hN1, one_mul]
  rw [hpow]
  congr 1
  congr 1
  refine Finset.sum_congr rfl ?_
  intro k hk
  obtain ⟨hk0, hkN⟩ := Finset.mem_Ioo.mp hk
  have hEN : N / 2 + N / 2 = N := by
    obtain ⟨m, hm⟩ := hE
    omega
  have hFzero : F (N - k) = 0 := hzero (N - k) (by omega) (by omega)
  simp only [hFzero, zero_mul, sub_zero]
  have hcast : ((N - j : ℕ) : ℝ) = (N : ℝ) - (j : ℝ) := Nat.cast_sub hjN
  have hNne : ((N : ℕ) : ℝ) ≠ 0 := by
    have : 0 < N := by omega
    exact_mod_cast this.ne'
  have hangle : 2 * Real.pi * ((N - j : ℕ) : ℝ) * (k : ℝ) / (N : ℝ) =
      (k : ℝ) * (2 * Real.pi) - 2 * Real.pi * (j : ℝ) * (k : ℝ) / (N : ℝ) := by
    rw [hcast]
    field_simp
    ring
  rw [hangle, Real.cos_nat_mul_two_pi_sub]

/-- Witness for C5 at N = 4 with unit gains on bins 0..2 and zero sine
slot. -/
theorem hc2r_symmetric_witness :
    hc2r 4 (fun k => if k ≤ 2 then 1 else 0) 1 =
      hc2r 4 (fun k => if k ≤ 2 then 1 else 0) 3 :=
  hc2r_symmetric 4 (fun k => if k ≤ 2 then 1 else 0) 1 (by decide)
    (by
      intro m hm1 hm2
      have hm : m = 3 := by omega
      subst hm
      norm_num)
    (by norm_num) (by norm_num)

/-- On a successful reload, the returned state is exactly the synthesized
state post-composed with the diagnostic forward transform. -/
theorem EqualizerLoad_ok (rate : ℚ) (N : ℕ) (cfg : Config) (st s : EqState)
    (b : Bool) (Fq : ℕ → ℚ)
    (hok : LoadFrequencyAmplification rate N cfg (fun _ => 0) = .ok Fq)
    (hld : EqualizerLoad rate N cfg st = some (s, b)) :
    s = finalizeFreq N (synthState N Fq st) ∧ b = true := by
  unfold EqualizerLoad at hld
  rw [hok] at hld
  have hld2 : some ((finalizeFreq N (synthState N Fq st), true) : EqState × Bool) =
      some (s, b) := hld
  injection hld2 with h
  injection h with ha hb
  exact ⟨ha.symm, hb.symm⟩

/-- The synthesized time buffer does not depend on the previous contents
of the time buffer at any allocated index: every slot below N is
recomputed from the transform output. -/
theorem eqSynthTime_indep (N : ℕ) (F : ℕ → ℝ) (T T2 : ℕ → ℝ) (i : ℕ)
    (hi : i < N) : eqSynthTime N F T i = eqSynthTime N F T2 i := by
  unfold eqSynthTime
  by_cases h0 : i = 0
  · subst h0
    rw [Function.update_same, Function.update_same]
  · rw [Function.update_noteq h0, Function.update_noteq h0]
    unfold shiftStep
    by_cases hs : 1 ≤ i ∧ i < N / 2
    · rw [if_pos hs, if_pos hs]
      unfold windowStep
      have hc : N / 2 ≤ N - i ∧ N - i < N := ⟨by omega, by omega⟩
      rw [if_pos hc, if_pos hc]
      unfold invStep
      rw [if_pos (by omega : N - i - N / 2 < N), if_pos (by omega : N - i - N / 2 < N)]
    · rw [if_neg hs, if_neg hs]
      unfold windowStep
      have hc : N / 2 ≤ i ∧ i < N := ⟨by omega, hi⟩
      rw [if_pos hc, if_pos hc]
      unfold invStep
      rw [if_pos (by omega : i - N / 2 < N), if_pos (by omega : i - N / 2 < N)]

/-- C4: after the window-and-reindex step of a successful reload with even
filter length N, the delivered time buffer has sample 0 exactly 0; for
every i < N/2 the sample at N/2 + i is the raw inverse-transform output at
i times (0.5 + 0.5 cos(pi i / (N/2))) / N; and the filter is symmetric
about its center: the sample at i equals the sample at N - i for
1 ≤ i ≤ N/2 - 1. -/
theorem window_reindex_spec (rate : ℚ) (N : ℕ) (cfg : Config) (st s : EqState)
    (Fq : ℕ → ℚ) (hN : 0 < N) (hE : Even N)
    (hok : LoadFrequencyAmplification rate N cfg (fun _ => 0) = .ok Fq)
    (hld : EqualizerLoad rate N cfg st = some (s, true)) :
    s.time 0 = 0 ∧
    (∀ i, i < N / 2 → s.time (N / 2 + i) =
      hc2r N (fun k => (Fq k : ℝ)) i *
        ((0.5 + 0.5 * Real.cos (Real.pi * (i : ℝ) / ((N / 2 : ℕ) : ℝ))) / (N : ℝ))) ∧
    (∀ i, 1 ≤ i → i < N / 2 → s.time i = s.time (N - i)) := by
  obtain ⟨hs, -⟩ := EqualizerLoad_ok rate N cfg st s true Fq hok hld
  subst hs
  have hEN : N / 2 + N / 2 = N := by
    obtain ⟨m, hm⟩ := hE
    omega
  refine ⟨?_, ?_, ?_⟩
  · show Function.update
      (shiftStep N (windowStep N (invStep N (fun k => (Fq k : ℝ)) st.time))) 0 0 0 = 0
    exact Function.update_same _ _ _
  · intro i hi
    show Function.update
      (shiftStep N (windowStep N (invStep N (fun k => (Fq k : ℝ)) st.time))) 0 0
      (N / 2 + i) = _
    rw [Function.update_noteq (by omega : (N / 2 + i : ℕ) ≠ 0)]
    unfold shiftStep
    rw [if_neg (by omega : ¬ (1 ≤ N / 2 + i ∧ N / 2 + i < N / 2))]
    unfold windowStep
    rw [if_pos (⟨by omega, by omega⟩ : N / 2 ≤ N / 2 + i ∧ N / 2 + i < N)]
    have hsub : (N / 2 + i - N / 2 : ℕ) = i := by omega
    rw [hsub]
    unfold invStep
    rw [if_pos (by omega : i < N)]
    unfold GetWindow
    rw [mul_div_assoc]
  · intro i h1i hi
    show Function.update
        (shiftStep N (windowStep N (invStep N (fun k => (Fq k : ℝ)) st.time))) 0 0 i =
      Function.update
        (shiftStep N (windowStep N (invStep N (fun k => (Fq k : ℝ)) st.time))) 0 0
        (N - i)
    rw [Function.update_noteq (by omega : i ≠ 0),
      Function.update_noteq (by omega : (N - i : ℕ) ≠ 0)]
    unfold shiftStep
    rw [if_pos ⟨h1i, hi⟩, if_neg (by omega : ¬ (1 ≤ N - i ∧ N - i < N / 2))]

/-- Witness for C4 at rate 8, N = 2, empty configuration. -/
theorem window_reindex_spec_witness :
    ∃ s Fq, LoadFrequencyAmplification 8 2 [] (fun _ => 0) = .ok Fq ∧
      EqualizerLoad 8 2 [] ⟨fun _ => 0, fun _ => 0⟩ = some (s, true) ∧
      s.time 0 = 0 := by
  obtain ⟨Fq, hFq⟩ := isOk_exists
    (show (LoadFrequencyAmplification 8 2 [] (fun _ => 0)).isOk = true by
      norm_num [LoadFrequencyAmplification, loadAux, advance, LoadOut.isOk])
  obtain ⟨s, hld⟩ :
      ∃ s, EqualizerLoad 8 2 [] ⟨fun _ => 0, fun _ => 0⟩ = some (s, true) :=
    ⟨_, by unfold EqualizerLoad; rw [hFq]⟩
  exact ⟨s, Fq, hFq, hld,
    (window_reindex_spec 8 2 [] ⟨fun _ => 0, fun _ => 0⟩ s Fq (by norm_num)
      (by decide) hFq hld).1⟩

/-- C6: on a successful reload, the steps after the filter is finalized —
the forward transform with its division by N, and the read-only diagnostic
loops — leave the delivered time buffer unchanged: the returned time
buffer is exactly the synthesized filter, and only the frequency buffer is
rewritten (with the renormalized R2HC spectrum of that very filter). -/
theorem post_synthesis_frame (rate : ℚ) (N : ℕ) (cfg : Config) (st s : EqState)
    (Fq : ℕ → ℚ)
    (hok : LoadFrequencyAmplification rate N cfg (fun _ => 0) = .ok Fq)
    (hld : EqualizerLoad rate N cfg st = some (s, true)) :
    s.time = (synthState N Fq st).time ∧
    (∀ s2 : EqState, (finalizeFreq N s2).time = s2.time) ∧
    s.freq = fun i => if i < N then r2hc N (synthState N Fq st).time i / (N : ℝ)
      else (synthState N Fq st).freq i := by
  obtain ⟨hs, -⟩ := EqualizerLoad_ok rate N cfg st s true Fq hok hld
  subst hs
  exact ⟨rfl, fun _ => rfl, rfl⟩

/-- Witness for C6 at rate 8, N = 2, empty configuration. -/
theorem post_synthesis_frame_witness :
    ∃ s Fq, LoadFrequencyAmplification 8 2 [] (fun _ => 0) = .ok Fq ∧
      EqualizerLoad 8 2 [] ⟨fun _ => 0, fun _ => 0⟩ = some (s, true) ∧
      s.time = (synthState 2 Fq ⟨fun _ => 0, fun _ => 0⟩).time := by
  obtain ⟨Fq, hFq⟩ := isOk_exists
    (show (LoadFrequencyAmplification 8 2 [] (fun _ => 0)).isOk = true by
      norm_num [LoadFrequencyAmplification, loadAux, advance, LoadOut.isOk])
  obtain ⟨s, hld⟩ :
      ∃ s, EqualizerLoad 8 2 [] ⟨fun _ => 0, fun _ => 0⟩ = some (s, true) :=
    ⟨_, by unfold EqualizerLoad; rw [hFq]⟩
  exact ⟨s, Fq, hFq, hld,
    (post_synthesis_frame 8 2 [] ⟨fun _ => 0, fun _ => 0⟩ s Fq hFq hld).1⟩

/-- C7: reloading with the identical configuration twice in a row gives
the same outcome and bit-for-bit identical delivered time buffers, whatever
state the first reload started from. -/
theorem equalizer_load_idempotent (rate : ℚ) (N : ℕ) (cfg : Config)
    (st st1 st2 : EqState) (b1 b2 : Bool)
    (h1 : EqualizerLoad rate N cfg st = some (st1, b1))
    (h2 : EqualizerLoad rate N cfg st1 = some (st2, b2)) :
    b2 = b1 ∧ ∀ i, i < N → st2.time i = st1.time i := by
  unfold EqualizerLoad at h1 h2
  cases hL : LoadFrequencyAmplification rate N cfg (fun _ => 0) with
  | ok Fq =>
    rw [hL] at h1 h2
    have h1x : some ((finalizeFreq N (synthState N Fq st), true) : EqState × Bool) =
        some (st1, b1) := h1
    have h2x : some ((finalizeFreq N (synthState N Fq st1), true) : EqState × Bool) =
        some (st2, b2) := h2
    injection h1x with h1y
    injection h1y with h1a h1b
    injection h2x with h2y
    injection h2y with h2a h2b
    refine ⟨by rw [← h1b, ← h2b], ?_⟩
    intro i hi
    rw [← h1a, ← h2a]
    show eqSynthTime N (fun k => (Fq k : ℝ)) st1.time i =
      eqSynthTime N (fun k => (Fq k : ℝ)) st.time i
    exact eqSynthTime_indep N (fun k => (Fq k : ℝ)) st1.time st.time i hi
  | fail bq =>
    rw [hL] at h1 h2
    have h1x : some (({ st with
        freq := fun i => if i < N then (bq i : ℝ) else st.freq i }, false) :
          EqState × Bool) = some (st1, b1) := h1
    have h2x : some (({ st1 with
        freq := fun i => if i < N then (bq i : ℝ) else st1.freq i }, false) :
          EqState × Bool) = some (st2, b2) := h2
    injection h1x with h1y
    injection h1y with h1a h1b
    injection h2x with h2y
    injection h2y with h2a h2b
    refine ⟨by rw [← h1b, ← h2b], ?_⟩
    intro i _
    rw [← h2a, ← h1a]
  | diverge bq =>
    rw [hL] at h1
    exact absurd h1 (by simp)

/-- Witness for C7 at rate 8, N = 2, empty configuration. -/
theorem equalizer_load_idempotent_witness :
    ∃ st1 st2, EqualizerLoad 8 2 [] ⟨fun _ => 0, fun _ => 0⟩ = some (st1, true) ∧
      EqualizerLoad 8 2 [] st1 = some (st2, true) ∧
      ∀ i, i < 2 → st2.time i = st1.time i := by
  obtain ⟨Fq, hFq⟩ := isOk_exists
    (show (LoadFrequencyAmplification 8 2 [] (fun _ => 0)).isOk = true by
      norm_num [LoadFrequencyAmplification, loadAux, advance, LoadOut.isOk])
  obtain ⟨st1, h1⟩ :
      ∃ s, EqualizerLoad 8 2 [] ⟨fun _ => 0, fun _ => 0⟩ = some (s, true) :=
    ⟨_, by unfold EqualizerLoad; rw [hFq]⟩
  obtain ⟨st2, h2⟩ : ∃ s, EqualizerLoad 8 2 [] st1 = some (s, true) :=
    ⟨_, by unfold EqualizerLoad; rw [hFq]⟩
  exact ⟨st1, st2, h1, h2,
    (equalizer_load_idempotent 8 2 [] ⟨fun _ => 0, fun _ => 0⟩ st1 st2 true true
      h1 h2).2⟩

end Equalizer
